import Mathlib

set_option linter.unusedSectionVars false

/-!
# Verification of the castle_searcher best-first search engine

Shallow embedding of `src/main.rs`: a generic greedy best-first search
engine (`Searchable::pathfind`, its `BinaryHeap` frontier, `HashSet`
visited set and `best_of_all_time` tracker), the `HeapEntry` ordering
wrapper over `f64` fitness values, and the concrete `Castle` problem
model (`troops`, `does_win`, `from_random`, `neighbors`).

Conventions of the embedding:
* `u8`/`usize` values become `ℕ`; all values handled stay far below any
  overflow boundary, and where the source subtracts we record explicit
  no-underflow side conditions instead of wrapping.
* `f64` fitness values: the engine is proved generic over a linear order
  `F`, which is sound because the source's fitness values are compared
  with `partial_cmp`/`>` under the documented no-NaN precondition (the
  actual values are small integer win-counts cast to `f64`, compared
  exactly).  The full IEEE partial order, including NaN and the two
  infinities, is modelled separately by `F64` for the `HeapEntry`
  ordering claims.
* randomness (`thread_rng`) is modelled by an oracle argument supplying
  the drawn values.
* side-effecting calls (`output`, heap pushes, `fitness_estimate`
  invocations, `neighbors` invocations) are recorded in ghost trace
  fields of the search state so that temporal claims can be stated.
-/

namespace CastleSearcher

/-! ## The `f64` partial order (for `HeapEntry`'s `PartialOrd`/`Ord`)

`F64` models an IEEE double as seen by `f64::partial_cmp`: NaN compares
to nothing, the infinities bound every finite value, and finite values
compare like rationals. -/

inductive F64 where
  | nan : F64
  | neginf : F64
  | finite (q : ℚ) : F64
  | posinf : F64
deriving DecidableEq

/-- Models `f64::partial_cmp`: `none` exactly when either side is NaN. -/
def F64.partialCmp : F64 → F64 → Option Ordering
  | .nan, _ => none
  | _, .nan => none
  | .neginf, .neginf => some .eq
  | .neginf, _ => some .lt
  | _, .neginf => some .gt
  | .posinf, .posinf => some .eq
  | .posinf, _ => some .gt
  | _, .posinf => some .lt
  | .finite a, .finite b => some (compare a b)

/-- Models `HeapEntry<T>` from the source (a fitness value paired with an item),
with the fitness modelled as a full IEEE `F64` for the ordering claims. -/
structure HeapEntry64 (T : Type) where
  value : F64
  item : T
deriving DecidableEq

/-- Models `PartialOrd for HeapEntry<T>`: delegate to `value.partial_cmp`. -/
def HeapEntry64.partialCmp {T : Type} (a b : HeapEntry64 T) : Option Ordering :=
  a.value.partialCmp b.value

/-- Models `Ord for HeapEntry<T>`, i.e. `self.partial_cmp(other).unwrap()`.  The
`none` outcome models the `unwrap` panic. -/
def HeapEntry64.cmpUnwrapped {T : Type} (a b : HeapEntry64 T) : Option Ordering :=
  a.partialCmp b

/-! ## The `Castle` problem model -/

/-- Models `Castle { inner: [u8; 9] }`: nine division points, modelled as a
list of naturals (length 9 wherever a castle is produced by the code). -/
structure Castle where
  inner : List ℕ
deriving DecidableEq

/-- The invariant every `Castle` built by the program satisfies: `inner`
is sorted ascending, every entry is at most 100, and there are nine
entries. -/
def Castle.Wf (c : Castle) : Prop :=
  c.inner.Sorted (· ≤ ·) ∧ (∀ x ∈ c.inner, x ≤ 100) ∧ c.inner.length = 9

/-- Adjacent differences `inner[i+1] - inner[i]`, the loop body of
`Castle::troops`. -/
def diffs : List ℕ → List ℕ
  | a :: b :: rest => (b - a) :: diffs (b :: rest)
  | _ => []

/-- Models `Castle::troops`: `inner[0]`, the eight adjacent differences, then
`100 - inner.last()`. -/
def Castle.troops (c : Castle) : List ℕ :=
  c.inner.headD 0 :: (diffs c.inner ++ [100 - c.inner.getLastD 0])

/-- The subtractions of `Castle::troops` do not underflow: every
adjacent pair is non-decreasing and the last division point is at most
100 (so `inner[i+1]-inner[i]` and `100-inner.last()` are fine in `u8`). -/
def Castle.subsOk (c : Castle) : Prop :=
  c.inner.Chain' (· ≤ ·) ∧ c.inner.getLastD 0 ≤ 100

/-- Models `Castle::from_random`: draw nine values with `gen_range(0, 100)`
(half-open, so each is `g i % 100`), then sort.  `g` is the oracle for
`thread_rng`. -/
def Castle.from_random (g : Fin 9 → ℕ) : Castle :=
  ⟨((List.finRange 9).map (fun i => g i % 100)).insertionSort (· ≤ ·)⟩

/-- Models `Castle::neighbors`: for each index and each `d ∈ [-1, 1]`, bump the
division point by `d`, skip the result if it leaves `[0, 100]`,
otherwise re-sort. -/
def Castle.neighbors (c : Castle) : List Castle :=
  (List.range 9).flatMap fun update_index =>
    ([(-1 : ℤ), 1]).filterMap fun d =>
      let current_value : ℤ := (c.inner.getD update_index 0 : ℤ) + d
      if current_value < 0 ∨ 100 < current_value then none
      else some ⟨(c.inner.set update_index current_value.toNat).insertionSort (· ≤ ·)⟩

/-- The point-tallying loop of `Castle::does_win`: position weight `i`
(the source's `i+1`), strict winner takes `2*i`, ties give `i` to each. -/
def winPoints : ℕ → List (ℕ × ℕ) → ℕ × ℕ
  | _, [] => (0, 0)
  | i, (s, o) :: rest =>
    let p := winPoints (i + 1) rest
    if s < o then (p.1, p.2 + 2 * i)
    else if o < s then (p.1 + 2 * i, p.2)
    else (p.1 + i, p.2 + i)

/-- Models `Castle::does_win`: tally points over the paired troop counts and
test `self_points > other_points`. -/
def Castle.does_win (a b : Castle) : Bool :=
  let p := winPoints 1 (a.troops.zip b.troops)
  p.2 < p.1

/-- Models `CastleSearcher::test_on_data`: count training castles beaten. -/
def test_on_data (training_data : List Castle) (solution : Castle) : ℕ :=
  (training_data.filter fun other => solution.does_win other).length

/-! ## The generic search engine (`trait Searchable`)

The engine is generic over the solution type `S` and the fitness type
`F`.  `F` is an arbitrary linear order: under the source's no-NaN
precondition `f64::partial_cmp` is a total order, and the heap and the
tracker only ever compare fitness values. -/

/-- The capability record of `trait Searchable`: `neighbors`, the pure
value computed by `fitness_estimate` (for `CastleSearcher` this is
`test_on_data(solution) as f64`; its tracker side effect is threaded
through the search state separately), `is_goal`, and `start`.  `output`
prints; it is modelled by the `reports` trace. -/
structure Model (S F : Type) where
  neighbors : S → List S
  score : S → F
  is_goal : S → F → Bool
  start : S

/-- Models `HeapEntry<T>` specialised to a totally-ordered fitness, as used by
the frontier and the `best_of_all_time` tracker. -/
structure HeapEntry (F S : Type) where
  value : F
  item : S
deriving DecidableEq

/-- Models `BinaryHeap::peek` on the tracker: some entry of maximal `value`
(`none` on the empty heap; the tie among equal maxima is arbitrary, as
in the source). -/
def trackerPeek {F S : Type} [LinearOrder F] : List (HeapEntry F S) → Option (HeapEntry F S)
  | [] => none
  | e :: rest =>
    match trackerPeek rest with
    | none => some e
    | some m => if e.value < m.value then some m else some e

/-- The tracker update inside `fitness_estimate` (lines 33–39): push
`(fitness, solution)` when the heap is empty or `fitness` exceeds the
peeked maximum. -/
def trackerRecord {F S : Type} [LinearOrder F] (t : List (HeapEntry F S)) (s : S) (f : F) :
    List (HeapEntry F S) :=
  match trackerPeek t with
  | some boat => if boat.value < f then ⟨f, s⟩ :: t else t
  | none => ⟨f, s⟩ :: t

/-- The engine state: the `open` heap and `seen` set of `pathfind`, the
`best_of_all_time` tracker of `CastleSearcher`, plus ghost traces —
`reports` (`output` calls in order), `pushes` (frontier insertions in
order), `scoreCalls` and `neighborCalls` (invocation counts), and
`popEvents` (each popped entry paired with the frontier left behind). -/
structure SearchState (S F : Type) where
  openHeap : List (HeapEntry F S)
  seen : Finset S
  best_of_all_time : List (HeapEntry F S)
  reports : List (S × F)
  pushes : List S
  scoreCalls : ℕ
  neighborCalls : ℕ
  popEvents : List (HeapEntry F S × List (HeapEntry F S))

/-- Models `BinaryHeap::pop` on the frontier: remove and return an entry of
maximal `value` together with the remaining entries (`none` iff empty;
ties resolved arbitrarily, here towards the front). -/
def popMax {F S : Type} [LinearOrder F] :
    List (HeapEntry F S) → Option (HeapEntry F S × List (HeapEntry F S))
  | [] => none
  | e :: rest =>
    match popMax rest with
    | none => some (e, [])
    | some (m, r) => if e.value < m.value then some (m, e :: r) else some (e, rest)

/-- Models `Searchable::heap_entry`: wrap the fitness estimate and the solution
into a `HeapEntry`. -/
def heap_entry {S F : Type} (m : Model S F) (s : S) : HeapEntry F S :=
  ⟨m.score s, s⟩

/-- The side effects of one `fitness_estimate` call: update the
`best_of_all_time` tracker and count the call. -/
def recordScore {S F : Type} [LinearOrder F] (m : Model S F) (st : SearchState S F) (s : S) :
    SearchState S F :=
  { st with
    best_of_all_time := trackerRecord st.best_of_all_time s (m.score s)
    scoreCalls := st.scoreCalls + 1 }

/-- Models `open.push(...)`, recorded in the `pushes` trace. -/
def pushOpen {S F : Type} (st : SearchState S F) (e : HeapEntry F S) : SearchState S F :=
  { st with openHeap := e :: st.openHeap, pushes := st.pushes ++ [e.item] }

/-- The `for neighbor in self.neighbors(&current)` loop of `pathfind`:
skip seen neighbors; otherwise insert into `seen`, score (side effects
via `recordScore`), and push onto the frontier. -/
def expandLoop {S F : Type} [DecidableEq S] [LinearOrder F] (m : Model S F) :
    SearchState S F → List S → SearchState S F
  | st, [] => st
  | st, neighbor :: rest =>
    if neighbor ∈ st.seen then expandLoop m st rest
    else
      let st1 : SearchState S F := { st with seen := insert neighbor st.seen }
      expandLoop m (pushOpen (recordScore m st1 neighbor) (heap_entry m neighbor)) rest

/-- Neighbor expansion of one popped state, counting the single
`neighbors` invocation. -/
def expand {S F : Type} [DecidableEq S] [LinearOrder F] (m : Model S F) (current : S)
    (st : SearchState S F) : SearchState S F :=
  expandLoop m { st with neighborCalls := st.neighborCalls + 1 } (m.neighbors current)

/-- Outcome of a `pathfind` run.  `found` is the `return current`
path; `panicked` is the `unreachable!()` reached when the frontier is
exhausted — a process abort with the generic panic message, carrying no
"search space exhausted" report; `outOfFuel` is the artefact of the
fuelled embedding of the unbounded `while let` loop. -/
inductive RunResult (S F : Type) where
  | found : S → SearchState S F → RunResult S F
  | panicked : SearchState S F → RunResult S F
  | outOfFuel : SearchState S F → RunResult S F

/-- The engine state at the end of a run, whatever the outcome. -/
def RunResult.finalState {S F : Type} : RunResult S F → SearchState S F
  | .found _ st => st
  | .panicked st => st
  | .outOfFuel st => st

/-- The `while let Some(...) = open.pop()` loop of `pathfind`: pop the
maximum entry, `output` it (append to `reports`), test `is_goal`,
expand neighbors, repeat; an empty frontier reaches `unreachable!()`. -/
def pathfindLoop {S F : Type} [DecidableEq S] [LinearOrder F] (m : Model S F) :
    ℕ → SearchState S F → RunResult S F
  | 0, st => .outOfFuel st
  | fuel + 1, st =>
    match popMax st.openHeap with
    | none => .panicked st
    | some (e, rest) =>
      let st1 : SearchState S F :=
        { st with
          openHeap := rest
          reports := st.reports ++ [(e.item, e.value)]
          popEvents := st.popEvents ++ [(e, rest)] }
      if m.is_goal e.item e.value then .found e.item st1
      else pathfindLoop m fuel (expand m e.item st1)

/-- Lines 190–195 of `pathfind`: fresh `open` and `seen`, insert the
start state into `seen`, and push its heap entry. -/
def initState {S F : Type} [DecidableEq S] [LinearOrder F] (m : Model S F) : SearchState S F :=
  let st0 : SearchState S F := ⟨[], {m.start}, [], [], [], 0, 0, []⟩
  pushOpen (recordScore m st0 m.start) (heap_entry m m.start)

/-- Models `Searchable::pathfind`, fuelled. -/
def pathfind {S F : Type} [DecidableEq S] [LinearOrder F] (m : Model S F) (fuel : ℕ) :
    RunResult S F :=
  pathfindLoop m fuel (initState m)

/-! ## Auxiliary predicates used in theorem statements -/

/-- Comparison of two tracker peeks by fitness, with the empty peek
below everything: used to state that `peek`'s fitness never decreases. -/
def peekLE {F S : Type} [LinearOrder F] :
    Option (HeapEntry F S) → Option (HeapEntry F S) → Prop
  | none, _ => True
  | some _, none => False
  | some a, some b => a.value ≤ b.value

/-- Fitness values of the reported states, in report order. -/
def reportedFitness {S F : Type} (r : RunResult S F) : List F :=
  r.finalState.reports.map Prod.snd

/-- The dedup bookkeeping invariant of `pathfind`: the trace of frontier
insertions has no duplicates and covers exactly the `seen` set. -/
def PushInv {S F : Type} [DecidableEq S] (st : SearchState S F) : Prop :=
  st.pushes.Nodup ∧ st.pushes.toFinset = st.seen

/-- Every recorded pop event returned an entry whose fitness bounds
everything left in the frontier at that moment. -/
def PopsAreMax {S F : Type} [LinearOrder F] (st : SearchState S F) : Prop :=
  ∀ p ∈ st.popEvents, ∀ x ∈ p.2, x.value ≤ p.1.value

/-- The exhaustion invariant of `pathfind` relative to a set `R`
containing the reachable states: frontier items are seen, seen states
lie in `R` and include the start, fully-expanded seen states have all
neighbors seen, and the score-call count equals the seen count. -/
def ReachInv {S F : Type} (m : Model S F) (R : Finset S) (st : SearchState S F) : Prop :=
  (∀ e ∈ st.openHeap, e.item ∈ st.seen) ∧
  st.seen ⊆ R ∧
  (∀ s ∈ st.seen, (∀ e ∈ st.openHeap, e.item ≠ s) → ∀ t ∈ m.neighbors s, t ∈ st.seen) ∧
  st.scoreCalls = st.seen.card ∧
  m.start ∈ st.seen

/-- Extended fitness: an `f64` that is not NaN, i.e. a finite value or
one of the two infinities.  This is a linear order, so the engine runs
over it unchanged. -/
abbrev ExtFitness : Type := WithBot (WithTop ℤ)

/-- The non-finite `f64` value `+∞`. -/
def ExtFitness.posInf : ExtFitness := ((⊤ : WithTop ℤ) : ExtFitness)

/-- Finiteness of an extended fitness value. -/
def ExtFitness.IsFinite (f : ExtFitness) : Prop :=
  f ≠ ⊥ ∧ f ≠ ExtFitness.posInf

/-! ## Concrete problem models used as test inputs

`threeState` is the example scenario of the spec: states `A -> {B, C}`,
`B -> {}`, `C -> {}` with scores 1, 5, 3, goal always false (states are
`0, 1, 2 : Fin 3`). -/

def threeState : Model (Fin 3) ℤ where
  neighbors := fun s => if s = 0 then [1, 2] else []
  score := fun s => if s = 0 then 1 else if s = 1 then 5 else 3
  is_goal := fun _ _ => false
  start := 0

/-- A one-state model with no neighbors and an always-false goal: the
minimal run that exhausts its frontier. -/
def soloModel : Model Unit ℤ where
  neighbors := fun _ => []
  score := fun _ => 0
  is_goal := fun _ _ => false
  start := ()

/-- A one-state model whose score is the non-finite value `+∞`. -/
def infModel : Model Unit ExtFitness where
  neighbors := fun _ => []
  score := fun _ => ExtFitness.posInf
  is_goal := fun _ _ => false
  start := ()

/-- A model whose goal test accepts immediately. -/
def goalModel : Model Unit ℤ where
  neighbors := fun _ => [()]
  score := fun _ => 7
  is_goal := fun _ _ => true
  start := ()

/-- A two-state cycle `0 <-> 1` with an always-false goal, for the
finite-exhaustion claim. -/
def twoCycle : Model (Fin 2) ℤ where
  neighbors := fun s => if s = 0 then [1] else [0]
  score := fun s => if s = 0 then 4 else 2
  is_goal := fun _ _ => false
  start := 0

/-- An engine state with an empty frontier (over `soloModel`'s types),
used to exercise the exhaustion branch directly. -/
def emptyFrontierState : SearchState Unit ℤ :=
  ⟨[], {()}, [], [], [], 1, 0, []⟩

/-- Two concrete castles: `flat` keeps everything in the last field,
`spread` puts ten troops everywhere. -/
def flatCastle : Castle := ⟨[0, 0, 0, 0, 0, 0, 0, 0, 0]⟩

def spreadCastle : Castle := ⟨[10, 20, 30, 40, 50, 60, 70, 80, 90]⟩

end CastleSearcher

/-! # Theorems -/

namespace CastleSearcher

section Tracker

variable {F S : Type} [LinearOrder F]

theorem trackerPeek_eq_none {t : List (HeapEntry F S)} :
    trackerPeek t = none ↔ t = [] := by
  cases t with
  | nil => simp [trackerPeek]
  | cons e rest =>
    simp only [trackerPeek]
    cases trackerPeek rest with
    | none => simp
    | some m =>
      by_cases h : e.value < m.value <;> simp [h]

theorem trackerPeek_le {t : List (HeapEntry F S)} {b : HeapEntry F S}
    (hb : trackerPeek t = some b) : ∀ e ∈ t, e.value ≤ b.value := by
  induction t generalizing b with
  | nil => simp [trackerPeek] at hb
  | cons e rest ih =>
    simp only [trackerPeek] at hb
    intro x hx
    rcases List.mem_cons.1 hx with rfl | hx
    · cases hp : trackerPeek rest with
      | none => rw [hp] at hb; simp at hb; rw [← hb]
      | some m =>
        rw [hp] at hb
        by_cases h : x.value < m.value <;> simp [h] at hb <;> rw [← hb]
        exact le_of_lt h
    · cases hp : trackerPeek rest with
      | none =>
        rw [trackerPeek_eq_none.1 hp] at hx
        simp at hx
      | some m =>
        rw [hp] at hb
        have hxm := ih hp x hx
        by_cases h : e.value < m.value <;> simp [h] at hb <;> rw [← hb]
        · exact hxm
        · exact le_trans hxm (not_lt.1 h)

theorem trackerPeek_record_le {t : List (HeapEntry F S)} {s : S} {f : F} :
    peekLE (trackerPeek t) (trackerPeek (trackerRecord t s f)) := by
  cases hp : trackerPeek t with
  | none => simp [peekLE]
  | some b =>
    unfold trackerRecord
    rw [hp]
    by_cases h : b.value < f
    · simp only [h, if_true]
      simp only [trackerPeek, hp]
      by_cases h2 : f < b.value
      · exact absurd (lt_trans h h2) (lt_irrefl _)
      · simp [h2, peekLE]
        exact le_of_lt h
    · simp [h, hp, peekLE]

theorem peekLE_trans {a b c : Option (HeapEntry F S)} (h1 : peekLE a b) (h2 : peekLE b c) :
    peekLE a c := by
  cases a with
  | none => trivial
  | some x =>
    cases b with
    | none => exact absurd h1 (by simp [peekLE])
    | some y =>
      cases c with
      | none => exact absurd h2 (by simp [peekLE])
      | some z => exact le_trans (α := F) h1 h2

/-- C5: an entry is appended to the `best_of_all_time` tracker exactly
when the tracker is empty or the new fitness strictly exceeds the
peeked maximum; entries are never removed (the old list is a suffix of
the new one); and the peeked fitness is non-decreasing over any
sequence of `record` calls. -/
theorem tracker_record_spec :
    (∀ (t : List (HeapEntry F S)) (s : S) (f : F),
      (trackerRecord t s f = ⟨f, s⟩ :: t ↔
        t = [] ∨ ∃ b, trackerPeek t = some b ∧ b.value < f) ∧
      t <:+ trackerRecord t s f) ∧
    (∀ (calls : List (S × F)) (t : List (HeapEntry F S)),
      peekLE (trackerPeek t)
        (trackerPeek (calls.foldl (fun acc c => trackerRecord acc c.1 c.2) t))) := by
  constructor
  · intro t s f
    constructor
    · cases hp : trackerPeek t with
      | none =>
        have ht : t = [] := trackerPeek_eq_none.1 hp
        subst ht
        simp [trackerRecord, trackerPeek]
      | some b =>
        have ht : t ≠ [] := by
          intro h; rw [h] at hp; simp [trackerPeek] at hp
        unfold trackerRecord
        rw [hp]
        by_cases h : b.value < f
        · simp only [h, if_true, true_iff]
          exact Or.inr ⟨b, rfl, h⟩
        · simp only [h, if_false]
          constructor
          · intro habs
            exact absurd habs.symm (List.cons_ne_self _ _)
          · rintro (rfl | ⟨b', hb', hv⟩)
            · exact absurd hp (by simp [trackerPeek])
            · obtain rfl : b = b' := by injection hb'
              exact absurd hv h
    · unfold trackerRecord
      cases trackerPeek t with
      | none => exact List.suffix_cons _ _
      | some b =>
        by_cases h : b.value < f
        · simp only [h, if_true]
          exact List.suffix_cons _ _
        · simp only [h, if_false]
          exact List.suffix_refl _
  · intro calls
    induction calls with
    | nil => intro t; simp [peekLE]; cases trackerPeek t <;> simp [peekLE]
    | cons c rest ih =>
      intro t
      simp only [List.foldl_cons]
      exact peekLE_trans trackerPeek_record_le (ih _)

end Tracker

section HeapOrdering

/-- C8: under the no-NaN precondition, `HeapEntry`'s comparison is
total — `partial_cmp` returns `Some` for every pair, so `Ord::cmp`'s
`unwrap` never panics; the ordering depends only on the `value` fields;
and entries with equal fitness compare as `Ordering::Equal`. -/
theorem heapEntry_cmp_total {T : Type} (a b : HeapEntry64 T)
    (ha : a.value ≠ F64.nan) (hb : b.value ≠ F64.nan) :
    (∃ o, a.partialCmp b = some o) ∧
    a.cmpUnwrapped b ≠ none ∧
    (∀ a' b' : HeapEntry64 T, a'.value = a.value → b'.value = b.value →
      a'.cmpUnwrapped b' = a.cmpUnwrapped b) ∧
    (a.value = b.value → a.cmpUnwrapped b = some Ordering.eq) := by
  have htotal : ∃ o, a.value.partialCmp b.value = some o := by
    cases hva : a.value <;> cases hvb : b.value <;>
      first
        | exact absurd hva (by rw [hva] at ha ⊢; exact ha)
        | exact absurd hvb (by rw [hvb] at hb ⊢; exact hb)
        | exact ⟨_, rfl⟩
  refine ⟨htotal, ?_, ?_, ?_⟩
  · obtain ⟨o, ho⟩ := htotal
    simp [HeapEntry64.cmpUnwrapped, HeapEntry64.partialCmp, ho]
  · intro a' b' h1 h2
    simp [HeapEntry64.cmpUnwrapped, HeapEntry64.partialCmp, h1, h2]
  · intro hv
    simp only [HeapEntry64.cmpUnwrapped, HeapEntry64.partialCmp, hv]
    cases hvb : b.value with
    | nan => exact absurd hvb (by rw [hvb] at hb ⊢; exact hb)
    | neginf => rfl
    | posinf => rfl
    | finite q => simp [F64.partialCmp, compare_eq_iff_eq]

/-- Witness for C8 at concrete non-NaN entries. -/
theorem heapEntry_cmp_total_witness :
    (HeapEntry64.value ⟨F64.finite 1, (0 : ℕ)⟩ ≠ F64.nan) ∧
    HeapEntry64.cmpUnwrapped (⟨F64.finite 1, (0 : ℕ)⟩ : HeapEntry64 ℕ) ⟨F64.finite 2, 1⟩ ≠ none :=
  ⟨by decide,
    (heapEntry_cmp_total ⟨F64.finite 1, (0 : ℕ)⟩ ⟨F64.finite 2, 1⟩
      (by decide) (by decide)).2.1⟩

end HeapOrdering

section DoesWin

theorem winPoints_zip_self (l : List ℕ) : ∀ i, (winPoints i (l.zip l)).1 = (winPoints i (l.zip l)).2 := by
  induction l with
  | nil => intro i; simp [winPoints]
  | cons a rest ih =>
    intro i
    rw [List.zip_cons_cons]
    simp only [winPoints, lt_irrefl, if_false]
    rw [ih (i + 1)]

theorem winPoints_swap (l : List (ℕ × ℕ)) :
    ∀ i, winPoints i (l.map Prod.swap) = ((winPoints i l).2, (winPoints i l).1) := by
  induction l with
  | nil => intro i; simp [winPoints]
  | cons p rest ih =>
    intro i
    obtain ⟨s, o⟩ := p
    simp only [List.map_cons, Prod.swap_prod_mk, winPoints, ih (i + 1)]
    rcases lt_trichotomy s o with h | h | h
    · simp [h, not_lt.2 (le_of_lt h)]
    · simp [h, lt_irrefl]
    · simp [h, not_lt.2 (le_of_lt h)]

/-- C10: `does_win` is irreflexive and asymmetric: a castle never beats
itself, and two castles never both beat each other. -/
theorem does_win_irrefl_asymm :
    (∀ a : Castle, a.does_win a = false) ∧
    (∀ a b : Castle, a.does_win b = true → b.does_win a = false) := by
  constructor
  · intro a
    simp only [Castle.does_win, decide_eq_false_iff_not, not_lt]
    exact le_of_eq (winPoints_zip_self a.troops 1)
  · intro a b hab
    simp only [Castle.does_win, decide_eq_true_eq] at hab
    simp only [Castle.does_win, decide_eq_false_iff_not, not_lt]
    rw [← List.zip_swap, winPoints_swap]
    exact le_of_lt hab

/-- Witness for C10: `spreadCastle` beats `flatCastle`, so by asymmetry
`flatCastle` does not beat `spreadCastle`. -/
theorem does_win_irrefl_asymm_witness :
    Castle.does_win spreadCastle flatCastle = true ∧
    Castle.does_win flatCastle spreadCastle = false :=
  ⟨by decide, does_win_irrefl_asymm.2 spreadCastle flatCastle (by decide)⟩

end DoesWin

section CastleInvariants

theorem getLastD_mem (l : List ℕ) : ∀ d : ℕ, l.getLastD d ∈ d :: l := by
  induction l with
  | nil => intro d; simp
  | cons a rest ih =>
    intro d
    rw [List.getLastD_cons]
    rcases List.mem_cons.1 (ih a) with h | h
    · rw [h]; simp
    · exact List.mem_cons_of_mem _ (List.mem_cons_of_mem _ h)

theorem diffs_length (l : List ℕ) : ∀ a : ℕ, (diffs (a :: l)).length = l.length := by
  induction l with
  | nil => intro a; simp [diffs]
  | cons b rest ih =>
    intro a
    simp only [diffs, List.length_cons, ih b]

theorem head_add_diffs_sum (l : List ℕ) :
    ∀ a : ℕ, List.Chain' (· ≤ ·) (a :: l) → a + (diffs (a :: l)).sum = (a :: l).getLastD 0 := by
  induction l with
  | nil => intro a _; simp [diffs]
  | cons b rest ih =>
    intro a hc
    rw [List.chain'_cons] at hc
    simp only [diffs, List.sum_cons, List.getLastD_cons]
    rw [← Nat.add_assoc, Nat.add_sub_cancel' hc.1]
    have := ih b hc.2
    rwa [List.getLastD_cons] at this

/-- C9: every castle produced by `from_random` or (from a well-formed
castle) by `neighbors` has a sorted `inner` array of nine entries all
at most 100; and for any such castle `troops` yields exactly ten
values, its `u8` subtractions cannot underflow, and the values sum to
exactly 100. -/
theorem castle_invariants :
    (∀ g : Fin 9 → ℕ, (Castle.from_random g).Wf) ∧
    (∀ c : Castle, c.Wf → ∀ c' ∈ c.neighbors, c'.Wf) ∧
    (∀ c : Castle, c.Wf → c.troops.length = 10 ∧ c.subsOk ∧ c.troops.sum = 100) := by
  refine ⟨?_, ?_, ?_⟩
  · intro g
    refine ⟨List.sorted_insertionSort _ _, ?_, ?_⟩
    · intro x hx
      have hx' := (List.perm_insertionSort _ _).mem_iff.1 hx
      obtain ⟨i, _, rfl⟩ := List.mem_map.1 hx'
      exact le_of_lt (lt_of_lt_of_le (Nat.mod_lt _ (by norm_num)) (by norm_num))
    · show (List.insertionSort _ _).length = 9
      rw [(List.perm_insertionSort _ _).length_eq]
      simp
  · intro c hc c' hc'
    simp only [Castle.neighbors, List.mem_flatMap, List.mem_filterMap] at hc'
    obtain ⟨idx, hidx, d, hd, hsome⟩ := hc'
    by_cases hrange : ((c.inner.getD idx 0 : ℤ) + d < 0 ∨ 100 < (c.inner.getD idx 0 : ℤ) + d)
    · rw [if_pos hrange] at hsome
      exact absurd hsome (by simp)
    · rw [if_neg hrange] at hsome
      obtain ⟨hup, hdown⟩ := not_or.1 hrange
      cases hsome
      refine ⟨List.sorted_insertionSort _ _, ?_, ?_⟩
      · intro x hx
        have hx' := (List.perm_insertionSort _ _).mem_iff.1 hx
        rcases List.mem_or_eq_of_mem_set hx' with h | rfl
        · exact hc.2.1 x h
        · exact Int.toNat_le.2 (not_lt.1 hdown)
      · rw [(List.perm_insertionSort _ _).length_eq, List.length_set]
        exact hc.2.2
  · intro c hc
    obtain ⟨inner⟩ := c
    obtain ⟨hsorted, hle, hlen⟩ := hc
    simp only at hsorted hle hlen
    obtain ⟨a, rest, rfl⟩ : ∃ a rest, inner = a :: rest := by
      cases inner with
      | nil => simp at hlen
      | cons a rest => exact ⟨a, rest, rfl⟩
    have hlast : (a :: rest).getLastD 0 ≤ 100 := by
      rcases List.mem_cons.1 (getLastD_mem (a :: rest) 0) with h | h
      · rw [h]; norm_num
      · exact hle _ h
    have hchain : List.Chain' (· ≤ ·) (a :: rest) := hsorted.chain'
    refine ⟨?_, ⟨hchain, hlast⟩, ?_⟩
    · simp only [Castle.troops, List.length_cons, List.length_append, diffs_length,
        List.length_nil] at hlen ⊢
      omega
    · simp only [Castle.troops, List.sum_cons, List.sum_append, List.sum_cons, List.sum_nil,
        List.headD_cons]
      rw [Nat.add_zero, ← Nat.add_assoc, head_add_diffs_sum rest a hchain,
        Nat.add_sub_cancel' hlast]

/-- Witness for C9: the all-zero random draw yields a well-formed
castle, and the concrete `spreadCastle` (well-formed by computation)
has troops summing to 100. -/
theorem castle_invariants_witness :
    (Castle.from_random fun _ => 0).Wf ∧ spreadCastle.troops.sum = 100 :=
  ⟨castle_invariants.1 (fun _ => 0),
    (castle_invariants.2.2 spreadCastle (by refine ⟨?_, ?_, ?_⟩ <;> decide)).2.2⟩

end CastleInvariants

section Engine

variable {S F : Type} [DecidableEq S] [LinearOrder F]

theorem popMax_eq_none {l : List (HeapEntry F S)} : popMax l = none ↔ l = [] := by
  cases l with
  | nil => simp [popMax]
  | cons e rest =>
    simp only [popMax]
    cases popMax rest with
    | none => simp
    | some p =>
      obtain ⟨m, r⟩ := p
      by_cases h : e.value < m.value <;> simp [h]

theorem popMax_perm {l : List (HeapEntry F S)} {e : HeapEntry F S} {r : List (HeapEntry F S)}
    (h : popMax l = some (e, r)) : l.Perm (e :: r) := by
  induction l generalizing e r with
  | nil => simp [popMax] at h
  | cons x rest ih =>
    rw [popMax] at h
    cases hp : popMax rest with
    | none =>
      rw [hp] at h
      cases h
      rw [popMax_eq_none.1 hp]
    | some p =>
      obtain ⟨m, mr⟩ := p
      rw [hp] at h
      dsimp only at h
      by_cases hc : x.value < m.value
      · rw [if_pos hc] at h
        cases h
        exact ((ih hp).cons x).trans (List.Perm.swap e x mr)
      · rw [if_neg hc] at h
        cases h
        exact List.Perm.refl _

theorem popMax_max {l : List (HeapEntry F S)} {e : HeapEntry F S} {r : List (HeapEntry F S)}
    (h : popMax l = some (e, r)) : ∀ x ∈ r, x.value ≤ e.value := by
  induction l generalizing e r with
  | nil => simp [popMax] at h
  | cons x rest ih =>
    rw [popMax] at h
    cases hp : popMax rest with
    | none =>
      rw [hp] at h
      cases h
      simp
    | some p =>
      obtain ⟨m, mr⟩ := p
      rw [hp] at h
      dsimp only at h
      by_cases hc : x.value < m.value
      · rw [if_pos hc] at h
        cases h
        intro y hy
        rcases List.mem_cons.1 hy with rfl | hy
        · exact le_of_lt hc
        · exact ih hp y hy
      · rw [if_neg hc] at h
        cases h
        intro y hy
        have hym : y.value ≤ m.value ∨ y = m := by
          have hperm := popMax_perm hp
          have hmem : y ∈ m :: mr := hperm.mem_iff.1 hy
          rcases List.mem_cons.1 hmem with rfl | hx
          · exact Or.inr rfl
          · exact Or.inl (ih hp y hx)
        rcases hym with hle | rfl
        · exact le_trans hle (not_lt.1 hc)
        · exact not_lt.1 hc

theorem expandLoop_ghost (m : Model S F) (l : List S) (st : SearchState S F) :
    (expandLoop m st l).popEvents = st.popEvents ∧
    (expandLoop m st l).reports = st.reports ∧
    (expandLoop m st l).neighborCalls = st.neighborCalls := by
  induction l generalizing st with
  | nil => exact ⟨rfl, rfl, rfl⟩
  | cons nb rest ih =>
    simp only [expandLoop]
    by_cases h : nb ∈ st.seen
    · rw [if_pos h]; exact ih st
    · rw [if_neg h]
      have := ih (pushOpen (recordScore m { st with seen := insert nb st.seen } nb)
        (heap_entry m nb))
      simpa [pushOpen, recordScore] using this

theorem expandLoop_seen_mono (m : Model S F) (l : List S) (st : SearchState S F) :
    st.seen ⊆ (expandLoop m st l).seen := by
  induction l generalizing st with
  | nil => exact Finset.Subset.refl _
  | cons nb rest ih =>
    simp only [expandLoop]
    by_cases h : nb ∈ st.seen
    · rw [if_pos h]; exact ih st
    · rw [if_neg h]
      refine Finset.Subset.trans ?_ (ih _)
      intro x hx
      simp [pushOpen, recordScore, Finset.mem_insert, hx]

theorem expandLoop_pushInv (m : Model S F) (l : List S) (st : SearchState S F)
    (h : PushInv st) : PushInv (expandLoop m st l) := by
  induction l generalizing st with
  | nil => exact h
  | cons nb rest ih =>
    simp only [expandLoop]
    by_cases hnb : nb ∈ st.seen
    · rw [if_pos hnb]; exact ih st h
    · rw [if_neg hnb]
      refine ih _ ?_
      obtain ⟨hnd, hts⟩ := h
      constructor
      · simp only [pushOpen, recordScore, heap_entry]
        rw [List.nodup_append]
        refine ⟨hnd, List.nodup_singleton _, ?_⟩
        intro x hx
        simp only [List.mem_singleton]
        intro hxeq
        subst hxeq
        exact hnb (hts ▸ List.mem_toFinset.2 hx)
      · simp only [pushOpen, recordScore, heap_entry, List.toFinset_append]
        rw [hts]
        ext x
        simp [Finset.mem_union, Finset.mem_insert, or_comm]

theorem loop_pushInv (m : Model S F) (fuel : ℕ) (st : SearchState S F)
    (h : PushInv st) : PushInv (pathfindLoop m fuel st).finalState := by
  induction fuel generalizing st with
  | zero => exact h
  | succ n ih =>
    rw [pathfindLoop]
    cases hp : popMax st.openHeap with
    | none => exact h
    | some p =>
      obtain ⟨e, rest⟩ := p
      dsimp only
      by_cases hg : m.is_goal e.item e.value
      · rw [if_pos hg]; exact h
      · rw [if_neg hg]
        refine ih _ ?_
        exact expandLoop_pushInv m _ _ h

theorem loop_seen_mono (m : Model S F) (fuel : ℕ) :
    ∀ st : SearchState S F, st.seen ⊆ (pathfindLoop m fuel st).finalState.seen := by
  induction fuel with
  | zero => intro st; exact Finset.Subset.refl _
  | succ n ih =>
    intro st
    rw [pathfindLoop]
    cases hp : popMax st.openHeap with
    | none => exact Finset.Subset.refl _
    | some p =>
      obtain ⟨e, rest⟩ := p
      dsimp only
      by_cases hg : m.is_goal e.item e.value
      · rw [if_pos hg]
        exact Finset.Subset.refl _
      · rw [if_neg hg]
        refine Finset.Subset.trans ?_ (ih _)
        rw [expand]
        exact expandLoop_seen_mono m (m.neighbors e.item)
          { st with
            openHeap := rest
            reports := st.reports ++ [(e.item, e.value)]
            popEvents := st.popEvents ++ [(e, rest)]
            neighborCalls := st.neighborCalls + 1 }

/-- C3: over any run of `pathfind`, no state is pushed onto the
frontier twice (the push trace has no duplicates), the pushed states
are exactly the visited set, the number of frontier insertions equals
the visited-set size, and the visited set never loses elements across
loop iterations. -/
theorem pathfind_dedup (m : Model S F) (fuel : ℕ) :
    (pathfind m fuel).finalState.pushes.Nodup ∧
    (pathfind m fuel).finalState.pushes.toFinset = (pathfind m fuel).finalState.seen ∧
    (pathfind m fuel).finalState.pushes.length = (pathfind m fuel).finalState.seen.card ∧
    ∀ st : SearchState S F, st.seen ⊆ (pathfindLoop m fuel st).finalState.seen := by
  have hinit : PushInv (initState m) := by
    constructor
    · simp [initState, pushOpen, recordScore, heap_entry]
    · simp [initState, pushOpen, recordScore, heap_entry]
  obtain ⟨hnd, hts⟩ := loop_pushInv m fuel (initState m) hinit
  have h3 : (pathfindLoop m fuel (initState m)).finalState.pushes.length =
      (pathfindLoop m fuel (initState m)).finalState.seen.card := by
    rw [← hts, List.toFinset_card_of_nodup hnd]
  exact ⟨hnd, hts, h3, loop_seen_mono m fuel⟩

theorem loop_popsAreMax (m : Model S F) (fuel : ℕ) (st : SearchState S F)
    (h : PopsAreMax st) : PopsAreMax (pathfindLoop m fuel st).finalState := by
  induction fuel generalizing st with
  | zero => exact h
  | succ n ih =>
    rw [pathfindLoop]
    cases hp : popMax st.openHeap with
    | none => exact h
    | some p =>
      obtain ⟨e, rest⟩ := p
      dsimp only
      have h1 : PopsAreMax
          { st with openHeap := rest,
                    reports := st.reports ++ [(e.item, e.value)],
                    popEvents := st.popEvents ++ [(e, rest)] } := by
        intro p hp' x hx
        rcases List.mem_append.1 hp' with hold | hnew
        · exact h p hold x hx
        · rw [List.mem_singleton] at hnew
          subst hnew
          exact popMax_max hp x hx
      by_cases hg : m.is_goal e.item e.value
      · rw [if_pos hg]; exact h1
      · rw [if_neg hg]
        refine ih _ ?_
        intro p hp' x hx
        rw [expand, (expandLoop_ghost m (m.neighbors e.item) _).1] at hp'
        exact h1 p hp' x hx

/-- C1 (amended): every pop of the frontier returns an entry whose
enqueue-time fitness is at least that of every entry left in the
frontier at that moment. -/
theorem pathfind_pop_is_frontier_max (m : Model S F) (fuel : ℕ)
    (p : HeapEntry F S × List (HeapEntry F S))
    (hp : p ∈ (pathfind m fuel).finalState.popEvents)
    (x : HeapEntry F S) (hx : x ∈ p.2) : x.value ≤ p.1.value := by
  have hinit : PopsAreMax (initState m) := by
    intro q hq
    simp [initState, pushOpen, recordScore] at hq
  exact loop_popsAreMax m fuel (initState m) hinit p hp x hx

/-- Witness for the amended C1 on the spec's three-state example: the
second pop returns fitness 5 while fitness 3 remains in the frontier. -/
theorem pathfind_pop_is_frontier_max_witness :
    ((⟨5, 1⟩, [⟨3, 2⟩]) ∈ (pathfind threeState 10).finalState.popEvents) ∧
    HeapEntry.value (F := ℤ) (S := Fin 3) ⟨3, 2⟩ ≤ HeapEntry.value ⟨5, 1⟩ :=
  ⟨by decide,
    pathfind_pop_is_frontier_max threeState 10 (⟨5, 1⟩, [⟨3, 2⟩]) (by decide)
      ⟨3, 2⟩ (by decide)⟩

/-- C1 (counterexample): on the spec's own three-state example the
reported fitness sequence is `[1, 5, 3]`, which is not non-increasing
across consecutive pops. -/
theorem pathfind_reports_not_monotone :
    reportedFitness (pathfind threeState 10) = [1, 5, 3] ∧
    ¬ List.Chain' (fun a b => b ≤ a) (reportedFitness (pathfind threeState 10)) := by
  have h : reportedFitness (pathfind threeState 10) = [1, 5, 3] := by decide
  refine ⟨h, ?_⟩
  rw [h]
  simp [List.chain'_cons]

/-- C2 (amended): whenever the frontier is empty at the top of the
loop, `pathfind` ends in the `unreachable!()` panic — an outcome
distinct from every successful `found` return, but a crash rather than
a reported "search space exhausted" message. -/
theorem exhausted_frontier_panics (m : Model S F) (fuel : ℕ) (st : SearchState S F)
    (h : st.openHeap = []) :
    pathfindLoop m (fuel + 1) st = RunResult.panicked st ∧
    ∀ (s : S) (st' : SearchState S F), RunResult.panicked st ≠ RunResult.found s st' := by
  constructor
  · rw [pathfindLoop, h]
    rfl
  · intro s st' hne
    exact RunResult.noConfusion hne

/-- Witness for the amended C2 at a concrete empty-frontier state. -/
theorem exhausted_frontier_panics_witness :
    pathfindLoop soloModel 1 emptyFrontierState = RunResult.panicked emptyFrontierState :=
  (exhausted_frontier_panics soloModel 0 emptyFrontierState rfl).1

/-- C2 (counterexample): a run over a one-state model with an
always-false goal exhausts its frontier and ends in the `unreachable!()`
panic — the process crashes instead of reporting an explicit "search
space exhausted" outcome. -/
theorem solo_run_panics :
    pathfind soloModel 2 =
      RunResult.panicked ⟨[], {()}, [⟨0, ()⟩], [((), 0)], [()], 1, 1, [(⟨0, ()⟩, [])]⟩ := by
  rfl

/-- C7: if the goal test accepts the very first popped state (the start
state), `pathfind` returns it immediately, with exactly one `output`
call and no `neighbors` invocation. -/
theorem goal_shortcircuit (m : Model S F) (fuel : ℕ)
    (hg : m.is_goal m.start (m.score m.start) = true) :
    (pathfind m (fuel + 1)).finalState.reports = [(m.start, m.score m.start)] ∧
    (pathfind m (fuel + 1)).finalState.neighborCalls = 0 ∧
    pathfind m (fuel + 1) =
      RunResult.found m.start ((pathfind m (fuel + 1)).finalState) := by
  have hrun : pathfind m (fuel + 1) =
      RunResult.found m.start
        { openHeap := []
          seen := {m.start}
          best_of_all_time := trackerRecord [] m.start (m.score m.start)
          reports := [(m.start, m.score m.start)]
          pushes := [m.start]
          scoreCalls := 1
          neighborCalls := 0
          popEvents := [(⟨m.score m.start, m.start⟩, [])] } := by
    rw [pathfind, pathfindLoop]
    simp only [initState, pushOpen, recordScore, heap_entry, popMax]
    rw [if_pos hg]
    simp
  rw [hrun]
  exact ⟨rfl, rfl, rfl⟩

/-- Witness for C7 on a model whose goal test accepts immediately. -/
theorem goal_shortcircuit_witness :
    (pathfind goalModel 1).finalState.reports = [((), 7)] ∧
    (pathfind goalModel 1).finalState.neighborCalls = 0 :=
  ⟨(goal_shortcircuit goalModel 0 rfl).1, (goal_shortcircuit goalModel 0 rfl).2.1⟩

/-- C6 (amended): the scoring step has no error path and performs no
finiteness check: the start state's entry is unconditionally pushed onto
the frontier and recorded in the empty tracker whatever its score —
this holds for every fitness order, including `ExtFitness` with its
non-finite values — and every unseen neighbor is likewise pushed
unconditionally. -/
theorem scoring_no_error (m : Model S F) :
    (initState m).pushes = [m.start] ∧
    (initState m).best_of_all_time = [⟨m.score m.start, m.start⟩] ∧
    (∀ (st : SearchState S F) (nb : S), nb ∉ st.seen →
      (expandLoop m st [nb]).pushes = st.pushes ++ [nb]) := by
  refine ⟨rfl, rfl, ?_⟩
  intro st nb hnb
  simp [expandLoop, hnb, pushOpen, recordScore, heap_entry]

/-- Witness for the amended C6: an unseen neighbor of the three-state
example is pushed. -/
theorem scoring_no_error_witness :
    (1 : Fin 3) ∉ (initState threeState).seen ∧
    (expandLoop threeState (initState threeState) [(1 : Fin 3)]).pushes =
      (initState threeState).pushes ++ [1] :=
  ⟨by decide, (scoring_no_error threeState).2.2 (initState threeState) 1 (by decide)⟩

/-- C6 (counterexample): with a model whose score is the non-finite
value `+∞`, the engine still inserts the scored entry into the frontier
(the push trace) and into the `best_of_all_time` tracker; no error is
propagated. -/
theorem infinite_score_inserted :
    ¬ (infModel.score ()).IsFinite ∧
    (pathfind infModel 2).finalState.pushes = [()] ∧
    (pathfind infModel 2).finalState.best_of_all_time = [⟨ExtFitness.posInf, ()⟩] := by
  refine ⟨?_, rfl, rfl⟩
  intro hfin
  exact hfin.2 rfl

theorem pathfindLoop_panicked_mono (m : Model S F) :
    ∀ (fuel f' : ℕ) (st stf : SearchState S F),
      pathfindLoop m fuel st = RunResult.panicked stf → fuel ≤ f' →
      pathfindLoop m f' st = RunResult.panicked stf := by
  intro fuel
  induction fuel with
  | zero =>
    intro f' st stf h _
    rw [pathfindLoop] at h
    exact RunResult.noConfusion h
  | succ n ih =>
    intro f' st stf h hle
    obtain ⟨f'', rfl⟩ : ∃ f'', f' = f'' + 1 := ⟨f' - 1, by omega⟩
    rw [pathfindLoop] at h ⊢
    cases hp : popMax st.openHeap with
    | none =>
      rw [hp] at h
      dsimp only at h ⊢
      exact h
    | some p =>
      obtain ⟨e, rest⟩ := p
      rw [hp] at h
      dsimp only at h ⊢
      by_cases hg : m.is_goal e.item e.value
      · rw [if_pos hg] at h
        exact RunResult.noConfusion h
      · rw [if_neg hg] at h ⊢
        exact ih f'' _ stf h (by omega)

theorem expandLoop_inv (m : Model S F) (R : Finset S) (l : List S) :
    ∀ (st : SearchState S F),
      (∀ x ∈ l, x ∈ R) →
      (∀ e ∈ st.openHeap, e.item ∈ st.seen) →
      st.seen ⊆ R →
      st.scoreCalls = st.seen.card →
      (∀ e ∈ (expandLoop m st l).openHeap, e.item ∈ (expandLoop m st l).seen) ∧
      (expandLoop m st l).seen ⊆ R ∧
      (expandLoop m st l).scoreCalls = (expandLoop m st l).seen.card ∧
      (expandLoop m st l).openHeap.length + st.seen.card
        = (expandLoop m st l).seen.card + st.openHeap.length ∧
      (∀ x ∈ l, x ∈ (expandLoop m st l).seen) ∧
      (∃ pre, (expandLoop m st l).openHeap = pre ++ st.openHeap ∧
        ∀ x ∈ (expandLoop m st l).seen, x ∉ st.seen → ∃ e ∈ pre, e.item = x) := by
  induction l with
  | nil =>
    intro st _ hOpen hSeen hCount
    refine ⟨hOpen, hSeen, hCount, Nat.add_comm _ _, by simp, [], rfl, ?_⟩
    intro x hx hnx
    exact absurd hx hnx
  | cons nb rest ih =>
    intro st hl hOpen hSeen hCount
    simp only [expandLoop]
    by_cases hnb : nb ∈ st.seen
    · rw [if_pos hnb]
      obtain ⟨c1, c2, c3, c4, c5, pre, hpre, hnew⟩ :=
        ih st (fun x hx => hl x (List.mem_cons_of_mem _ hx)) hOpen hSeen hCount
      refine ⟨c1, c2, c3, c4, ?_, pre, hpre, hnew⟩
      intro x hx
      rcases List.mem_cons.1 hx with rfl | hx
      · exact expandLoop_seen_mono m rest st hnb
      · exact c5 x hx
    · rw [if_neg hnb]
      set st' : SearchState S F :=
        pushOpen (recordScore m { st with seen := insert nb st.seen } nb) (heap_entry m nb)
        with hst'
      have hfields : st'.openHeap = ⟨m.score nb, nb⟩ :: st.openHeap ∧
          st'.seen = insert nb st.seen ∧ st'.scoreCalls = st.scoreCalls + 1 := by
        refine ⟨?_, ?_, ?_⟩ <;> simp [hst', pushOpen, recordScore, heap_entry]
      obtain ⟨hf1, hf2, hf3⟩ := hfields
      have hOpen' : ∀ e ∈ st'.openHeap, e.item ∈ st'.seen := by
        intro e he
        rw [hf1] at he
        rw [hf2]
        rcases List.mem_cons.1 he with rfl | he
        · exact Finset.mem_insert_self _ _
        · exact Finset.mem_insert_of_mem (hOpen e he)
      have hSeen' : st'.seen ⊆ R := by
        rw [hf2]
        exact Finset.insert_subset_iff.2 ⟨hl nb (List.mem_cons_self _ _), hSeen⟩
      have hCount' : st'.scoreCalls = st'.seen.card := by
        rw [hf3, hf2, Finset.card_insert_of_not_mem hnb, hCount]
      obtain ⟨c1, c2, c3, c4, c5, pre, hpre, hnew⟩ :=
        ih st' (fun x hx => hl x (List.mem_cons_of_mem _ hx)) hOpen' hSeen' hCount'
      have hmono : st'.seen ⊆ (expandLoop m st' rest).seen := expandLoop_seen_mono m rest st'
      refine ⟨c1, c2, c3, ?_, ?_, ?_⟩
      · rw [hf2, Finset.card_insert_of_not_mem hnb] at c4
        rw [hf1] at c4
        simp only [List.length_cons] at c4
        omega
      · intro x hx
        rcases List.mem_cons.1 hx with rfl | hx
        · exact hmono (hf2 ▸ Finset.mem_insert_self _ _)
        · exact c5 x hx
      · refine ⟨pre ++ [⟨m.score nb, nb⟩], ?_, ?_⟩
        · rw [hpre, hf1, List.append_assoc]
          rfl
        · intro x hx hnx
          by_cases hxnb : x = nb
          · subst hxnb
            exact ⟨⟨m.score x, x⟩, List.mem_append.2 (Or.inr (List.mem_singleton_self _)), rfl⟩
          · have hx' : x ∉ st'.seen := by
              rw [hf2]
              intro hmem
              rcases Finset.mem_insert.1 hmem with rfl | hmem
              · exact hxnb rfl
              · exact hnx hmem
            obtain ⟨e, he, hei⟩ := hnew x hx hx'
            exact ⟨e, List.mem_append.2 (Or.inl he), hei⟩

theorem loop_exhausts (m : Model S F) (R : Finset S)
    (hclosed : ∀ s ∈ R, ∀ t ∈ m.neighbors s, t ∈ R)
    (hgoal : ∀ s f, m.is_goal s f = false) :
    ∀ (fuel : ℕ) (st : SearchState S F), ReachInv m R st →
      R.card + st.openHeap.length + 1 ≤ fuel + st.seen.card →
      ∃ stf, pathfindLoop m fuel st = RunResult.panicked stf ∧
        ReachInv m R stf ∧ stf.openHeap = [] := by
  intro fuel
  induction fuel with
  | zero =>
    intro st hinv hbound
    exfalso
    have hcard := Finset.card_le_card hinv.2.1
    omega
  | succ n ih =>
    intro st hinv hbound
    obtain ⟨hOpen, hSeen, hClosure, hCount, hStart⟩ := hinv
    rw [pathfindLoop]
    cases hp : popMax st.openHeap with
    | none =>
      exact ⟨st, rfl, ⟨hOpen, hSeen, hClosure, hCount, hStart⟩, popMax_eq_none.1 hp⟩
    | some p =>
      obtain ⟨e, rest⟩ := p
      dsimp only
      rw [hgoal e.item e.value]
      simp only [Bool.false_eq_true, if_false]
      have hperm := popMax_perm hp
      have hlen : st.openHeap.length = rest.length + 1 := by
        rw [hperm.length_eq]
        rfl
      have heseen : e.item ∈ st.seen :=
        hOpen e (hperm.mem_iff.2 (List.mem_cons_self _ _))
      have heR : e.item ∈ R := hSeen heseen
      set st1 : SearchState S F :=
        { st with
          openHeap := rest
          reports := st.reports ++ [(e.item, e.value)]
          popEvents := st.popEvents ++ [(e, rest)] } with hst1
      set st1' : SearchState S F := { st1 with neighborCalls := st1.neighborCalls + 1 }
        with hst1'
      have hexp : expand m e.item st1 = expandLoop m st1' (m.neighbors e.item) := rfl
      have hOpen1 : ∀ x ∈ st1'.openHeap, x.item ∈ st1'.seen := by
        intro x hx
        exact hOpen x (hperm.mem_iff.2 (List.mem_cons_of_mem _ hx))
      obtain ⟨c1, c2, c3, c4, c5, pre, hpre, hnew⟩ :=
        expandLoop_inv m R (m.neighbors e.item) st1'
          (fun x hx => hclosed e.item heR x hx) hOpen1 hSeen hCount
      set st2 : SearchState S F := expandLoop m st1' (m.neighbors e.item) with hst2
      have hmono : st.seen ⊆ st2.seen := expandLoop_seen_mono m _ st1'
      have hinv2 : ReachInv m R st2 := by
        refine ⟨c1, c2, ?_, c3, hmono hStart⟩
        intro s hs hnot t ht
        by_cases hsseen : s ∈ st.seen
        · by_cases hsopen : ∃ x ∈ st.openHeap, x.item = s
          · obtain ⟨x, hx, hxi⟩ := hsopen
            rcases List.mem_cons.1 (hperm.mem_iff.1 hx) with rfl | hxr
            · subst hxi
              exact c5 t ht
            · exfalso
              refine hnot x ?_ hxi
              rw [hpre]
              exact List.mem_append.2 (Or.inr hxr)
          · have hclosed_s := hClosure s hsseen (fun x hx => by
              intro hxi
              exact hsopen ⟨x, hx, hxi⟩)
            exact hmono (hclosed_s t ht)
        · exfalso
          obtain ⟨x, hx, hxi⟩ := hnew s hs hsseen
          refine hnot x ?_ hxi
          rw [hpre]
          exact List.mem_append.2 (Or.inl hx)
      have hbound2 : R.card + st2.openHeap.length + 1 ≤ n + st2.seen.card := by
        have h4 : st2.openHeap.length + st.seen.card = st2.seen.card + rest.length := c4
        omega
      obtain ⟨stf, heq, hinvf, hopenf⟩ := ih st2 hinv2 hbound2
      refine ⟨stf, ?_, hinvf, hopenf⟩
      rw [hexp]
      exact heq

/-- C4: for a model whose reachable state set `R` (the least
neighbor-closed set containing `start`) is finite and whose goal test is
always false, `pathfind` terminates by frontier exhaustion (the
`unreachable!()` panic) for every fuel beyond `|R| + 1`, having made
exactly `|R|` fitness-estimate calls — one per reachable state. -/
theorem pathfind_exhausts_finite (m : Model S F) (R : Finset S)
    (hstart : m.start ∈ R)
    (hclosed : ∀ s ∈ R, ∀ t ∈ m.neighbors s, t ∈ R)
    (hmin : ∀ R' : Finset S, m.start ∈ R' →
      (∀ s ∈ R', ∀ t ∈ m.neighbors s, t ∈ R') → R ⊆ R')
    (hgoal : ∀ s f, m.is_goal s f = false) :
    ∃ stf, (∀ fuel, R.card + 1 ≤ fuel → pathfind m fuel = RunResult.panicked stf) ∧
      stf.scoreCalls = R.card := by
  have hseen0 : (initState m).seen = {m.start} := rfl
  have hopen0 : (initState m).openHeap = [⟨m.score m.start, m.start⟩] := rfl
  have hinv : ReachInv m R (initState m) := by
    refine ⟨?_, ?_, ?_, ?_, ?_⟩
    · intro x hx
      rw [hopen0, List.mem_singleton] at hx
      subst hx
      rw [hseen0]
      exact Finset.mem_singleton_self _
    · rw [hseen0]
      intro x hx
      rw [Finset.mem_singleton] at hx
      subst hx
      exact hstart
    · intro s hs hnot t ht
      exfalso
      rw [hseen0, Finset.mem_singleton] at hs
      subst hs
      exact hnot ⟨m.score m.start, m.start⟩ (hopen0 ▸ List.mem_singleton_self _) rfl
    · rw [hseen0]
      rfl
    · rw [hseen0]
      exact Finset.mem_singleton_self _
  have hbound : R.card + (initState m).openHeap.length + 1 ≤
      (R.card + 1) + (initState m).seen.card := by
    rw [hopen0, hseen0]
    simp
  obtain ⟨stf, heq, hinvf, hopenf⟩ :=
    loop_exhausts m R hclosed hgoal (R.card + 1) (initState m) hinv hbound
  refine ⟨stf, ?_, ?_⟩
  · intro fuel hf
    exact pathfindLoop_panicked_mono m (R.card + 1) fuel (initState m) stf heq hf
  · obtain ⟨_, hS, hC, hCnt, hSt⟩ := hinvf
    have hRsub : R ⊆ stf.seen := by
      refine hmin stf.seen hSt ?_
      intro s hs t ht
      refine hC s hs ?_ t ht
      intro x hx
      rw [hopenf] at hx
      exact absurd hx (List.not_mem_nil x)
    rw [hCnt, Finset.Subset.antisymm hS hRsub]

/-- Witness for C4 on the two-state cycle: the run exhausts after
scoring both reachable states. -/
theorem pathfind_exhausts_finite_witness :
    ∃ stf, pathfind twoCycle 3 = RunResult.panicked stf ∧ stf.scoreCalls = 2 := by
  obtain ⟨stf, h1, h2⟩ :=
    pathfind_exhausts_finite twoCycle {0, 1} (by decide) (by decide) (by decide)
      (fun s f => rfl)
  exact ⟨stf, h1 3 (by decide), h2.trans (by decide)⟩

end Engine

end CastleSearcher
